import Mathlib

/-!
Verification of the Mann-Kendall trend test implementation in `mkt.py`
(package `mkt`, function `test`).

The embedding is exact: Python/numpy floats are modelled by an extended
value domain `F` consisting of exact rationals together with the IEEE
special values `inf`, `-inf` and NaN (signed zeros are not
distinguished; rounding of finite values is not modelled).  The three
transcendental library routines are abstracted by oracle parameters:
`sqrt0` for `numpy.sqrt` on positive rationals, `ndtr0` for
`scipy.special.ndtr` on finite arguments and `ndtri0` for
`scipy.special.ndtri` (which may return an infinity, hence its
codomain is `F`).  All integer quantities of the source (the sign
matrix, the statistic S, group sizes) are modelled by `ℤ`/`ℕ`.
-/

set_option maxHeartbeats 1000000

namespace Mkt

/-- Extended value domain for the results of numpy/scipy floating point
operations: NaN, the two infinities, or an exact finite rational. -/
inductive F : Type
  | nan : F
  | inf : F
  | ninf : F
  | fin : ℚ → F
deriving DecidableEq, Repr

/-- IEEE negation. -/
def fneg : F → F
  | F.nan => F.nan
  | F.inf => F.ninf
  | F.ninf => F.inf
  | F.fin a => F.fin (-a)

/-- IEEE addition (NaN absorbing, `inf + -inf = NaN`). -/
def fadd : F → F → F
  | F.nan, _ => F.nan
  | _, F.nan => F.nan
  | F.inf, F.ninf => F.nan
  | F.ninf, F.inf => F.nan
  | F.inf, _ => F.inf
  | _, F.inf => F.inf
  | F.ninf, _ => F.ninf
  | _, F.ninf => F.ninf
  | F.fin a, F.fin b => F.fin (a + b)

/-- IEEE subtraction, as addition of the negation. -/
def fsub (a b : F) : F := fadd a (fneg b)

/-- IEEE multiplication (NaN absorbing, `inf * 0 = NaN`). -/
def fmul : F → F → F
  | F.nan, _ => F.nan
  | _, F.nan => F.nan
  | F.inf, F.inf => F.inf
  | F.inf, F.ninf => F.ninf
  | F.ninf, F.inf => F.ninf
  | F.ninf, F.ninf => F.inf
  | F.inf, F.fin b => if b = 0 then F.nan else if 0 < b then F.inf else F.ninf
  | F.ninf, F.fin b => if b = 0 then F.nan else if 0 < b then F.ninf else F.inf
  | F.fin a, F.inf => if a = 0 then F.nan else if 0 < a then F.inf else F.ninf
  | F.fin a, F.ninf => if a = 0 then F.nan else if 0 < a then F.ninf else F.inf
  | F.fin a, F.fin b => F.fin (a * b)

/-- IEEE division (NaN absorbing, `x/0` is a signed infinity or NaN,
`x/inf = 0`, `inf/inf = NaN`; the sign of zero is not tracked). -/
def fdiv : F → F → F
  | F.nan, _ => F.nan
  | _, F.nan => F.nan
  | F.inf, F.inf => F.nan
  | F.inf, F.ninf => F.nan
  | F.ninf, F.inf => F.nan
  | F.ninf, F.ninf => F.nan
  | F.inf, F.fin b => if 0 ≤ b then F.inf else F.ninf
  | F.ninf, F.fin b => if 0 ≤ b then F.ninf else F.inf
  | F.fin _, F.inf => F.fin 0
  | F.fin _, F.ninf => F.fin 0
  | F.fin a, F.fin b =>
      if b = 0 then (if a = 0 then F.nan else if 0 < a then F.inf else F.ninf)
      else F.fin (a / b)

/-- IEEE comparison `a <= b`: false whenever either side is NaN. -/
def fle : F → F → Bool
  | F.nan, _ => false
  | _, F.nan => false
  | F.ninf, _ => true
  | _, F.inf => true
  | F.inf, _ => false
  | _, F.ninf => false
  | F.fin a, F.fin b => decide (a ≤ b)

/-- IEEE comparison `a >= b` (`Zmk >= Z_` in the source). -/
def fge (a b : F) : Bool := fle b a

/-- `numpy.fabs` on the extended domain. -/
def fabsF : F → F
  | F.nan => F.nan
  | F.inf => F.inf
  | F.ninf => F.inf
  | F.fin a => F.fin |a|

/-- `scipy.special.ndtr` lifted to the extended domain: `ndtr` maps
`+inf` to 1, `-inf` to 0 and NaN to NaN; on finite arguments it is the
abstract oracle `ndtr0`. -/
def ndtrF (ndtr0 : ℚ → ℚ) : F → F
  | F.nan => F.nan
  | F.inf => F.fin 1
  | F.ninf => F.fin 0
  | F.fin q => F.fin (ndtr0 q)

/-- `numpy.sqrt` on the exact model: NaN on negative input, exactly 0
on 0, otherwise given by the abstract oracle `sqrt0`. -/
def sqrtF (sqrt0 : ℚ → ℚ) (q : ℚ) : F :=
  if q < 0 then F.nan else if q = 0 then F.fin 0 else F.fin (sqrt0 q)

/-- Bool test whether an extended value is a finite rational in [0,1]. -/
def finInUnit : F → Bool
  | F.fin q => decide (0 ≤ q ∧ q ≤ 1)
  | _ => false

/-- Errors a call of `mkt.test` can raise: the three input assertions
(mkt.py lines 118-120), the array shape errors raised inside the sign
matrix loop when `t` and `x` have different lengths (lines 125-128),
and the `UnboundLocalError` raised when `Zmk` or `MK` is referenced
without having been assigned (lines 150-181, 211). -/
inductive MKErr : Type
  | assertFail : MKErr
  | shapeMismatch : MKErr
  | unboundLocal : MKErr
deriving DecidableEq, Repr

/-- The four-tuple `(MK, m, c, p)` returned by `mkt.test`. -/
abbrev MKResult : Type := String × F × F × F

/-- `numpy.sign` of a rational. -/
def sgnQ (q : ℚ) : ℤ := if 0 < q then 1 else if q < 0 then -1 else 0

/-- One entry of the sign matrix: the difference is snapped to zero when
its magnitude is below the tie tolerance `precx` (mkt.py lines 126-127)
and then passed through `numpy.sign` (line 128). -/
def snapSgn (precx d : ℚ) : ℤ := if |d| < precx then 0 else sgnQ d

/-- The Mann-Kendall statistic S: the sum of the strict upper triangle
of the n-by-n sign matrix, `sgn[i][j] = sign(x[j] - x[i])` after
snapping (mkt.py line 131).  The inner sum ranges over `i < j`. -/
def Sstat (precx : ℚ) (n : ℕ) (x : List ℚ) : ℤ :=
  ∑ j ∈ Finset.range n, ∑ i ∈ Finset.range j, snapSgn precx (x.getD j 0 - x.getD i 0)

/-- Truncation toward zero, the C cast a float receives when stored
into an integer numpy array. -/
def truncQ (q : ℚ) : ℤ := if 0 ≤ q then ⌊q⌋ else ⌈q⌉

/-- The value written on the diagonal of the integer sign matrix by
`np.fill_diagonal(sgn, precx * 1E6)` (mkt.py line 135): the float
`precx * 1e6` truncated to the int dtype of `sgn`. -/
def diagFill (precx : ℚ) : ℤ := truncQ (precx * 1000000)

/-- Row indices `i` produced by `np.where(sgn == 0)` after the diagonal
fill (mkt.py line 136): row `i` appears iff some entry of row `i` of
the filled matrix is zero, i.e. some off-diagonal snapped sign is zero,
or the diagonal fill value itself truncated to zero. -/
def tieRows (precx : ℚ) (n : ℕ) (x : List ℚ) : Finset ℕ :=
  (Finset.range n).filter fun i =>
    (∃ j ∈ Finset.range n, j ≠ i ∧ snapSgn precx (x.getD j 0 - x.getD i 0) = 0) ∨
      diagFill precx = 0

/-- The distinct tied values `ties = np.unique(x[i])` (mkt.py line 137),
as a finite set (`np.unique` sorts and deduplicates; downstream the
order only feeds a commutative sum). -/
def tiesOf (precx : ℚ) (n : ℕ) (x : List ℚ) : Finset ℚ :=
  (tieRows precx n x).image fun i => x.getD i 0

/-- The size `q[k] = len(np.where(|x - ties[k]| < precx)[0])` of the tie
group around value `v` (mkt.py lines 141-142). -/
def qcount (precx : ℚ) (n : ℕ) (x : List ℚ) (v : ℚ) : ℤ :=
  (((Finset.range n).filter fun l => |x.getD l 0 - v| < precx).card : ℤ)

/-- The tie correction `term2 = (q * (q - 1) * (2 * q + 5)).sum()`
(mkt.py line 145). -/
def term2Of (precx : ℚ) (n : ℕ) (x : List ℚ) : ℤ :=
  ∑ v ∈ tiesOf precx n x,
    qcount precx n x v * (qcount precx n x v - 1) * (2 * qcount precx n x v + 5)

/-- The variance estimate
`varS = (n*(n-1)*(2n+5) - term2) / 18.` (mkt.py lines 144-147). -/
def varSOf (precx : ℚ) (n : ℕ) (x : List ℚ) : ℚ :=
  (((n : ℤ) * ((n : ℤ) - 1) * (2 * (n : ℤ) + 5) - term2Of precx n x : ℤ) : ℚ) / 18

/-- The three-branch Z-score computation (mkt.py lines 150-155).  The
three `if`/`elif` guards are translated literally; when none of them
holds, `Zmk` is left unassigned, modelled as `none`. -/
def zmkStep (sqrt0 : ℚ → ℚ) (precx : ℚ) (S : ℤ) (varS : ℚ) : Option F :=
  if 0 < (S : ℚ) - precx then
    some (fdiv (F.fin ((S : ℚ) - 1)) (sqrtF sqrt0 varS))
  else if (S : ℚ) - precx = 0 then
    some (F.fin 0)
  else if (S : ℚ) + precx < 0 then
    some (fdiv (F.fin ((S : ℚ) + 1)) (sqrtF sqrt0 varS))
  else none

/-- Whether `Ha` is one of the three recognized alternatives; when it
is not, no verdict branch runs and `MK` stays unassigned. -/
def haValid (Ha : String) : Bool := Ha == "up" || Ha == "down" || Ha == "upordown"

/-- The verdict string (mkt.py lines 162-181).  `Z_` is
`ndtri(1 - alpha)` for the one-sided tests and `ndtri(1 - alpha/2)` for
the two-sided test; comparisons follow IEEE semantics. -/
def verdictOf (ndtri0 : ℚ → F) (alpha : ℚ) (Ha : String) (zmk : F) : String :=
  if Ha = "up" then
    if fge zmk (ndtri0 (1 - alpha)) then "accept Ha := upward trend"
    else "reject Ha := upward trend"
  else if Ha = "down" then
    if fle zmk (fneg (ndtri0 (1 - alpha))) then "accept Ha := downward trend"
    else "reject Ha := downward trend"
  else if Ha = "upordown" then
    if fge (fabsF zmk) (ndtri0 (1 - alpha / 2)) then "accept Ha := upward OR downward trend"
    else "reject Ha := upward OR downward trend"
  else ""

/-- The p-value computation (mkt.py lines 194-209), branching on the
same three S regions and on `Ha`.  The `F.fin 0` fallbacks are
unreachable from `test`: the S-region fallback is excluded because
`zmkStep` already returned `none` there, and the `Ha` fallback because
`haValid` was checked. -/
def pOf (ndtr0 : ℚ → ℚ) (precx : ℚ) (S : ℤ) (Ha : String) (zmk : F) : F :=
  if 0 < (S : ℚ) - precx then
    if Ha = "up" then fsub (F.fin 1) (ndtrF ndtr0 zmk)
    else if Ha = "down" then ndtrF ndtr0 zmk
    else if Ha = "upordown" then fmul (F.fin (1/2)) (fsub (F.fin 1) (ndtrF ndtr0 zmk))
    else F.fin 0
  else if (S : ℚ) - precx = 0 then F.fin (1/2)
  else if (S : ℚ) + precx < 0 then
    if Ha = "up" then fsub (F.fin 1) (ndtrF ndtr0 zmk)
    else if Ha = "down" then ndtrF ndtr0 zmk
    else if Ha = "upordown" then fmul (F.fin (1/2)) (ndtrF ndtr0 zmk)
    else F.fin 0
  else F.fin 0

/-- `numpy.mean` of a list of rationals. -/
def meanQ (l : List ℚ) : ℚ := l.sum / (l.length : ℚ)

/-- Population variance (`ddof = 0`), the square of `numpy.std`. -/
def varPopQ (l : List ℚ) : ℚ :=
  (l.map fun a => (a - meanQ l) ^ 2).sum / (l.length : ℚ)

/-- Sample variance (`ddof = 1`), the diagonal of `numpy.cov` as used
inside `numpy.corrcoef`. -/
def varSampQ (l : List ℚ) : ℚ :=
  (l.map fun a => (a - meanQ l) ^ 2).sum / ((l.length : ℚ) - 1)

/-- Sample covariance (`ddof = 1`) of two paired lists, the
off-diagonal of `numpy.cov` as used inside `numpy.corrcoef`. -/
def covSampQ (t x : List ℚ) : ℚ :=
  (List.zipWith (fun a b => (a - meanQ t) * (b - meanQ x)) t x).sum / ((t.length : ℚ) - 1)

/-- `np.corrcoef(t, x)[0, 1]`: the sample covariance divided by the
product of the square roots of the sample variances.  The [-1, 1] clip
numpy applies afterwards is omitted: in exact arithmetic the quotient
already lies in [-1, 1] by Cauchy-Schwarz whenever it is finite, a
zero variance forces a zero covariance (giving NaN, which the clip
keeps), and rounding is not modelled. -/
def corrF (sqrt0 : ℚ → ℚ) (t x : List ℚ) : F :=
  fdiv (F.fin (covSampQ t x))
    (fmul (sqrtF sqrt0 (varSampQ t)) (sqrtF sqrt0 (varSampQ x)))

/-- The slope `m = np.corrcoef(t, x)[0, 1] * (np.std(x) / np.std(t))`
(mkt.py line 187). -/
def slopeF (sqrt0 : ℚ → ℚ) (t x : List ℚ) : F :=
  fmul (corrF sqrt0 t x) (fdiv (sqrtF sqrt0 (varPopQ x)) (sqrtF sqrt0 (varPopQ t)))

/-- The intercept `c = np.mean(x) - m * np.mean(t)` (mkt.py line 188). -/
def interceptF (sqrt0 : ℚ → ℚ) (t x : List ℚ) : F :=
  fsub (F.fin (meanQ x)) (fmul (slopeF sqrt0 t x) (F.fin (meanQ t)))

/-- The part of `test` after the input assertions and the shape check:
Z-score, verdict, slope/intercept, p-value.  If no Z branch applied,
the verdict lines raise `UnboundLocalError` on `Zmk` (for a recognized
`Ha`); if `Ha` is not recognized, the `return` raises
`UnboundLocalError` on `MK`.  Either way the call fails. -/
def testCore (sqrt0 : ℚ → ℚ) (ndtri0 : ℚ → F) (ndtr0 : ℚ → ℚ) (t x : List ℚ)
    (precx alpha : ℚ) (Ha : String) : Except MKErr MKResult :=
  (zmkStep sqrt0 precx (Sstat precx t.length x) (varSOf precx t.length x)).elim
    (Except.error MKErr.unboundLocal)
    (fun zmk =>
      if haValid Ha then
        Except.ok (verdictOf ndtri0 alpha Ha zmk, slopeF sqrt0 t x, interceptF sqrt0 t x,
          pOf ndtr0 precx (Sstat precx t.length x) Ha zmk)
      else Except.error MKErr.unboundLocal)

/-- The function `mkt.test(t, x, precx, alpha, Ha)`.  The three
`assert` statements fail exactly on falsy arguments (`0` for the
rationals, the empty string for `Ha`); a length mismatch between `t`
and `x` makes the first sign matrix row assignment raise (modelled by
`shapeMismatch`, skipped when `len(t) = 0` since the loop then never
runs).  One degenerate corner is modelled loosely: with `len(t) = 0`,
`x` nonempty and a negative tolerance (outside the contract domain),
numpy raises a dimension error at the `corrcoef` line while this model
returns; every claim below excludes that corner through a positivity
hypothesis on the tolerance or on the variance. -/
def test (sqrt0 : ℚ → ℚ) (ndtri0 : ℚ → F) (ndtr0 : ℚ → ℚ) (t x : List ℚ)
    (precx alpha : ℚ) (Ha : String) : Except MKErr MKResult :=
  if precx = 0 then Except.error MKErr.assertFail
  else if alpha = 0 then Except.error MKErr.assertFail
  else if Ha = "" then Except.error MKErr.assertFail
  else if t.length ≠ 0 ∧ x.length ≠ t.length then Except.error MKErr.shapeMismatch
  else testCore sqrt0 ndtri0 ndtr0 t x precx alpha Ha

instance : DecidableEq (Except MKErr MKResult) := fun a b =>
  match a, b with
  | Except.ok u, Except.ok v =>
      if h : u = v then Decidable.isTrue (by rw [h])
      else Decidable.isFalse fun hc => h (Except.ok.inj hc)
  | Except.error e, Except.error f =>
      if h : e = f then Decidable.isTrue (by rw [h])
      else Decidable.isFalse fun hc => h (Except.error.inj hc)
  | Except.ok _, Except.error _ => Decidable.isFalse fun hc => Except.noConfusion hc
  | Except.error _, Except.ok _ => Decidable.isFalse fun hc => Except.noConfusion hc

/-- Substring test at an offset, on character lists. -/
def subAt (l p : List Char) (k : ℕ) : Bool := decide ((l.drop k).take p.length = p)

/-- Substring test on character lists. -/
def hasSub (l p : List Char) : Bool := (List.range (l.length + 1)).any fun k => subAt l p k

/-- Whether `pat` occurs as a contiguous substring of `s`. -/
def hasSubstr (s pat : String) : Bool := hasSub s.data pat.data

/-- The phrase naming each alternative hypothesis inside the verdict
strings. -/
def haName (Ha : String) : String :=
  if Ha = "up" then "upward trend"
  else if Ha = "down" then "downward trend"
  else if Ha = "upordown" then "upward OR downward trend"
  else ""

/-! ### Imperative model of the array mutations in `test`

The body of `mkt.test` mutates three numpy arrays it allocates itself:
`tmp` (rewritten in place by the snapping mask, line 127), `sgn`
(row assignments in the loop, line 128, and the diagonal fill, line
135) and `q` (entry assignments in the tie loop, line 142).  `PyState`
carries the caller arrays `t` and `x` together with these locals; every
mutating statement of the source is one state transformer, so the
frame property "the call never writes to `t` or `x`" is a theorem
about this model. -/

/-- The caller-visible arrays together with the three mutable local
arrays of `mkt.test` (absent before their first assignment). -/
structure PyState where
  tArr : List ℚ
  xArr : List ℚ
  tmpA : Option (List ℚ)
  sgnA : Option (List (List ℤ))
  qA : Option (List ℤ)
deriving Repr

/-- Assign the local `tmp`. -/
def setTmp (σ : PyState) (v : Option (List ℚ)) : PyState :=
  ⟨σ.tArr, σ.xArr, v, σ.sgnA, σ.qA⟩

/-- Assign the local `sgn`. -/
def setSgn (σ : PyState) (v : Option (List (List ℤ))) : PyState :=
  ⟨σ.tArr, σ.xArr, σ.tmpA, v, σ.qA⟩

/-- Assign the local `q`. -/
def setQA (σ : PyState) (v : Option (List ℤ)) : PyState :=
  ⟨σ.tArr, σ.xArr, σ.tmpA, σ.sgnA, v⟩

/-- `sgn = np.zeros((n, n), dtype="int")` (mkt.py line 124). -/
def stSgnInit (n : ℕ) (σ : PyState) : PyState :=
  setSgn σ (some (List.replicate n (List.replicate n 0)))

/-- `tmp = x - x[i]` (mkt.py line 126): allocates a fresh array. -/
def stTmpDiff (i : ℕ) (σ : PyState) : PyState :=
  setTmp σ (some (σ.xArr.map fun a => a - σ.xArr.getD i 0))

/-- `tmp[np.where(np.fabs(tmp) < precx)] = 0.` (mkt.py line 127):
rewrites `tmp` in place. -/
def stTmpSnap (precx : ℚ) (σ : PyState) : PyState :=
  setTmp σ (some ((σ.tmpA.getD []).map fun d => if |d| < precx then 0 else d))

/-- `sgn[i] = np.sign(tmp)` (mkt.py line 128): rewrites row `i` of
`sgn` in place. -/
def stSgnRow (i : ℕ) (σ : PyState) : PyState :=
  setSgn σ (some ((σ.sgnA.getD []).set i ((σ.tmpA.getD []).map sgnQ)))

/-- The sign matrix loop (mkt.py lines 125-128). -/
def sgnLoop (precx : ℚ) (n : ℕ) (σ : PyState) : PyState :=
  (List.range n).foldl (fun s i => stSgnRow i (stTmpSnap precx (stTmpDiff i s))) σ

/-- `np.fill_diagonal(sgn, precx * 1E6)` (mkt.py line 135): rewrites
the diagonal of `sgn` in place with the int-cast fill value. -/
def stFillDiag (precx : ℚ) (σ : PyState) : PyState :=
  setSgn σ (some ((σ.sgnA.getD []).mapIdx fun i row => row.set i (diagFill precx)))

/-- `q = np.zeros(len(ties), dtype="int")` (mkt.py line 139). -/
def stQInit (k : ℕ) (σ : PyState) : PyState := setQA σ (some (List.replicate k 0))

/-- `q[k] = len(idx)` (mkt.py line 142): rewrites entry `k` of `q` in
place. -/
def stQSet (kIdx : ℕ) (v : ℤ) (σ : PyState) : PyState :=
  setQA σ (some ((σ.qA.getD []).set kIdx v))

/-- The tie group size loop (mkt.py lines 140-142). -/
def qLoop (precx : ℚ) (tiesL : List ℚ) (σ : PyState) : PyState :=
  (List.range tiesL.length).foldl
    (fun s k => stQSet k (qcount precx s.xArr.length s.xArr (tiesL.getD k 0)) s) σ

/-- The statement-level run of `mkt.test` over the mutable state: the
assertions and the scalar statements touch no array; the array
mutations happen in the order of the source.  On a `t`/`x` length
mismatch the first loop iteration computes `tmp` and then fails on the
row assignment; the remaining error paths (unassigned `Zmk`/`MK`)
occur after all array statements. -/
def testImp (precx alpha : ℚ) (Ha : String) (σ0 : PyState) : PyState :=
  if precx = 0 then σ0
  else if alpha = 0 then σ0
  else if Ha = "" then σ0
  else if σ0.tArr.length ≠ 0 ∧ σ0.xArr.length ≠ σ0.tArr.length then
    stTmpSnap precx (stTmpDiff 0 (stSgnInit σ0.tArr.length σ0))
  else
    qLoop precx ((tiesOf precx σ0.tArr.length σ0.xArr).sort (· ≤ ·))
      (stQInit ((tiesOf precx σ0.tArr.length σ0.xArr).sort (· ≤ ·)).length
        (stFillDiag precx (sgnLoop precx σ0.tArr.length (stSgnInit σ0.tArr.length σ0))))

/-! ### Helper lemmas about the extended value domain -/

theorem fneg_fin (a : ℚ) : fneg (F.fin a) = F.fin (-a) := rfl

theorem fdiv_fin_neg (a : ℚ) (d : F) :
    fdiv (F.fin (-a)) d = fneg (fdiv (F.fin a) d) := by
  cases d with
  | nan => rfl
  | inf => simp [fdiv, fneg]
  | ninf => simp [fdiv, fneg]
  | fin b =>
      by_cases hb : b = 0
      · subst hb
        by_cases ha : a = 0
        · subst ha; simp [fdiv, fneg]
        · rcases lt_trichotomy a 0 with h | h | h
          · simp [fdiv, fneg, ha, neg_eq_zero, h, not_lt.mpr (le_of_lt h),
              neg_pos.mpr h]
          · exact absurd h ha
          · simp [fdiv, fneg, ha, neg_eq_zero, h, not_lt.mpr (neg_nonpos_of_nonneg (le_of_lt h))]
      · simp [fdiv, fneg, hb, neg_div]

theorem fmul_fneg_left (a b : F) : fmul (fneg a) b = fneg (fmul a b) := by
  cases a with
  | nan => cases b <;> rfl
  | inf => cases b with
    | nan => rfl
    | inf => rfl
    | ninf => rfl
    | fin q =>
        by_cases hq : q = 0
        · simp [fmul, fneg, hq]
        · rcases lt_trichotomy q 0 with h | h | h
          · simp [fmul, fneg, hq, h, not_lt.mpr (le_of_lt h)]
          · exact absurd h hq
          · simp [fmul, fneg, hq, h]
  | ninf => cases b with
    | nan => rfl
    | inf => rfl
    | ninf => rfl
    | fin q =>
        by_cases hq : q = 0
        · simp [fmul, fneg, hq]
        · rcases lt_trichotomy q 0 with h | h | h
          · simp [fmul, fneg, hq, h, not_lt.mpr (le_of_lt h)]
          · exact absurd h hq
          · simp [fmul, fneg, hq, h]
  | fin q => cases b with
    | nan => rfl
    | inf =>
        by_cases hq : q = 0
        · simp [fmul, fneg, hq]
        · rcases lt_trichotomy q 0 with h | h | h
          · simp [fmul, fneg, hq, neg_eq_zero, h, not_lt.mpr (le_of_lt h), neg_pos.mpr h]
          · exact absurd h hq
          · simp [fmul, fneg, hq, neg_eq_zero, h,
              not_lt.mpr (neg_nonpos_of_nonneg (le_of_lt h))]
    | ninf =>
        by_cases hq : q = 0
        · simp [fmul, fneg, hq]
        · rcases lt_trichotomy q 0 with h | h | h
          · simp [fmul, fneg, hq, neg_eq_zero, h, not_lt.mpr (le_of_lt h), neg_pos.mpr h]
          · exact absurd h hq
          · simp [fmul, fneg, hq, neg_eq_zero, h,
              not_lt.mpr (neg_nonpos_of_nonneg (le_of_lt h))]
    | fin r => simp [fmul, fneg, neg_mul]

theorem fle_fneg (a b : F) : fle (fneg a) (fneg b) = fle b a := by
  cases a <;> cases b <;> simp [fle, fneg]

/-! ### Negating the measurement series -/

theorem getD_map_neg (x : List ℚ) (i : ℕ) :
    (x.map fun a => -a).getD i 0 = -(x.getD i 0) := by
  induction x generalizing i with
  | nil => simp
  | cons a l ih =>
      cases i with
      | zero => simp
      | succ k => simpa using ih k

theorem sum_map_neg_list (x : List ℚ) : (x.map fun a => -a).sum = -x.sum := by
  induction x with
  | nil => simp
  | cons a l ih => simp [ih]; ring

theorem length_map_neg (x : List ℚ) : (x.map fun a => -a).length = x.length := by simp

theorem sgnQ_neg (q : ℚ) : sgnQ (-q) = -sgnQ q := by
  unfold sgnQ
  rcases lt_trichotomy q 0 with h | h | h
  · simp [h, neg_pos.mpr h, not_lt.mpr h.le]
  · subst h; simp
  · simp [h, not_lt.mpr (neg_nonpos_of_nonneg h.le), neg_lt_zero.mpr h, not_lt.mpr h.le,
      asymm h]

theorem snapSgn_eq_zero {precx d : ℚ} (h0 : 0 < precx) (hz : snapSgn precx d = 0) :
    |d| < precx := by
  by_cases hab : |d| < precx
  · exact hab
  · exfalso
    rw [snapSgn, if_neg hab] at hz
    unfold sgnQ at hz
    rcases lt_trichotomy d 0 with h | h | h
    · rw [if_neg (asymm h), if_pos h] at hz
      norm_num at hz
    · subst h
      exact hab (by simpa using h0)
    · rw [if_pos h] at hz
      norm_num at hz

theorem snapSgn_neg (precx d : ℚ) : snapSgn precx (-d) = -snapSgn precx d := by
  unfold snapSgn
  rw [abs_neg]
  split_ifs with h
  · simp
  · exact sgnQ_neg d

theorem Sstat_map_neg (precx : ℚ) (n : ℕ) (x : List ℚ) :
    Sstat precx n (x.map fun a => -a) = -Sstat precx n x := by
  unfold Sstat
  rw [← Finset.sum_neg_distrib]
  refine Finset.sum_congr rfl fun j _ => ?_
  rw [← Finset.sum_neg_distrib]
  refine Finset.sum_congr rfl fun i _ => ?_
  rw [getD_map_neg, getD_map_neg]
  have : (-(x.getD j 0) - -(x.getD i 0)) = -(x.getD j 0 - x.getD i 0) := by ring
  rw [this, snapSgn_neg]

theorem tieRows_map_neg (precx : ℚ) (n : ℕ) (x : List ℚ) :
    tieRows precx n (x.map fun a => -a) = tieRows precx n x := by
  unfold tieRows
  refine Finset.filter_congr fun i _ => ?_
  constructor
  · rintro (⟨j, hj, hne, hz⟩ | hd)
    · refine Or.inl ⟨j, hj, hne, ?_⟩
      rw [getD_map_neg, getD_map_neg] at hz
      have he : (-(x.getD j 0) - -(x.getD i 0)) = -(x.getD j 0 - x.getD i 0) := by ring
      rw [he, snapSgn_neg, neg_eq_zero] at hz
      exact hz
    · exact Or.inr hd
  · rintro (⟨j, hj, hne, hz⟩ | hd)
    · refine Or.inl ⟨j, hj, hne, ?_⟩
      rw [getD_map_neg, getD_map_neg]
      have he : (-(x.getD j 0) - -(x.getD i 0)) = -(x.getD j 0 - x.getD i 0) := by ring
      rw [he, snapSgn_neg, neg_eq_zero]
      exact hz
    · exact Or.inr hd

theorem tiesOf_map_neg (precx : ℚ) (n : ℕ) (x : List ℚ) :
    tiesOf precx n (x.map fun a => -a) = (tiesOf precx n x).image fun v => -v := by
  unfold tiesOf
  rw [tieRows_map_neg, Finset.image_image]
  refine Finset.image_congr fun i _ => ?_
  exact getD_map_neg x i

theorem qcount_map_neg (precx : ℚ) (n : ℕ) (x : List ℚ) (v : ℚ) :
    qcount precx n (x.map fun a => -a) (-v) = qcount precx n x v := by
  unfold qcount
  congr 1
  refine congrArg Finset.card (Finset.filter_congr fun l _ => ?_)
  rw [getD_map_neg]
  have he : (-(x.getD l 0) - -v) = -(x.getD l 0 - v) := by ring
  rw [he, abs_neg]

theorem term2Of_map_neg (precx : ℚ) (n : ℕ) (x : List ℚ) :
    term2Of precx n (x.map fun a => -a) = term2Of precx n x := by
  unfold term2Of
  rw [tiesOf_map_neg]
  rw [Finset.sum_image (fun a _ b _ h => neg_injective h)]
  refine Finset.sum_congr rfl fun v _ => ?_
  rw [qcount_map_neg]

theorem varSOf_map_neg (precx : ℚ) (n : ℕ) (x : List ℚ) :
    varSOf precx n (x.map fun a => -a) = varSOf precx n x := by
  unfold varSOf
  rw [term2Of_map_neg]

theorem meanQ_map_neg (x : List ℚ) : meanQ (x.map fun a => -a) = -meanQ x := by
  unfold meanQ
  rw [sum_map_neg_list, length_map_neg, neg_div]

theorem sqdev_map_neg (x : List ℚ) :
    ((x.map fun a => -a).map fun a => (a - meanQ (x.map fun b => -b)) ^ 2) =
      x.map fun a => (a - meanQ x) ^ 2 := by
  rw [meanQ_map_neg, List.map_map]
  refine List.map_congr_left fun a _ => ?_
  simp only [Function.comp]
  ring

theorem varPopQ_map_neg (x : List ℚ) : varPopQ (x.map fun a => -a) = varPopQ x := by
  unfold varPopQ
  rw [sqdev_map_neg, length_map_neg]

theorem varSampQ_map_neg (x : List ℚ) : varSampQ (x.map fun a => -a) = varSampQ x := by
  unfold varSampQ
  rw [sqdev_map_neg, length_map_neg]

theorem zipWith_sum_neg (f : ℚ → ℚ → ℚ) (t x : List ℚ) :
    (List.zipWith (fun a b => -f a b) t x).sum = -(List.zipWith f t x).sum := by
  induction t generalizing x with
  | nil => simp
  | cons a l ih =>
      cases x with
      | nil => simp
      | cons b m => simp [ih]; ring

theorem covSampQ_map_neg (t x : List ℚ) :
    covSampQ t (x.map fun a => -a) = -covSampQ t x := by
  unfold covSampQ
  rw [meanQ_map_neg, List.zipWith_map_right]
  have he : (fun a b => (a - meanQ t) * (-b - -meanQ x)) =
      fun a b => -((a - meanQ t) * (b - meanQ x)) := by
    funext a b; ring
  rw [he, zipWith_sum_neg, neg_div]

theorem corrF_map_neg (sqrt0 : ℚ → ℚ) (t x : List ℚ) :
    corrF sqrt0 t (x.map fun a => -a) = fneg (corrF sqrt0 t x) := by
  unfold corrF
  rw [covSampQ_map_neg, varSampQ_map_neg, fdiv_fin_neg]

theorem slopeF_map_neg (sqrt0 : ℚ → ℚ) (t x : List ℚ) :
    slopeF sqrt0 t (x.map fun a => -a) = fneg (slopeF sqrt0 t x) := by
  unfold slopeF
  rw [corrF_map_neg, varPopQ_map_neg, fmul_fneg_left]

/-! ### Frame lemmas for the imperative model -/

theorem foldl_preserves {β : Type} (g : PyState → β → PyState)
    (hg : ∀ σ b, (g σ b).tArr = σ.tArr ∧ (g σ b).xArr = σ.xArr) :
    ∀ (l : List β) (σ : PyState),
      ((l.foldl g σ).tArr = σ.tArr ∧ (l.foldl g σ).xArr = σ.xArr)
  | [], _ => ⟨rfl, rfl⟩
  | b :: l, σ => by
      have h1 := hg σ b
      have h2 := foldl_preserves g hg l (g σ b)
      simp only [List.foldl_cons]
      exact ⟨h2.1.trans h1.1, h2.2.trans h1.2⟩

theorem sgnLoop_frame (precx : ℚ) (n : ℕ) (σ : PyState) :
    (sgnLoop precx n σ).tArr = σ.tArr ∧ (sgnLoop precx n σ).xArr = σ.xArr :=
  foldl_preserves (fun s i => stSgnRow i (stTmpSnap precx (stTmpDiff i s)))
    (fun _ _ => ⟨rfl, rfl⟩) (List.range n) σ

theorem qLoop_frame (precx : ℚ) (tiesL : List ℚ) (σ : PyState) :
    (qLoop precx tiesL σ).tArr = σ.tArr ∧ (qLoop precx tiesL σ).xArr = σ.xArr :=
  foldl_preserves
    (fun s k => stQSet k (qcount precx s.xArr.length s.xArr (tiesL.getD k 0)) s)
    (fun _ _ => ⟨rfl, rfl⟩) (List.range tiesL.length) σ

/-! ### Characterizing successful calls of `test` -/

theorem test_ok_iff {sqrt0 : ℚ → ℚ} {ndtri0 : ℚ → F} {ndtr0 : ℚ → ℚ} {t x : List ℚ}
    {precx alpha : ℚ} {Ha : String} {r : MKResult} :
    test sqrt0 ndtri0 ndtr0 t x precx alpha Ha = Except.ok r ↔
      precx ≠ 0 ∧ alpha ≠ 0 ∧ Ha ≠ "" ∧ ¬(t.length ≠ 0 ∧ x.length ≠ t.length) ∧
        haValid Ha = true ∧
        ∃ zmk, zmkStep sqrt0 precx (Sstat precx t.length x) (varSOf precx t.length x) =
            some zmk ∧
          r = (verdictOf ndtri0 alpha Ha zmk, slopeF sqrt0 t x, interceptF sqrt0 t x,
            pOf ndtr0 precx (Sstat precx t.length x) Ha zmk) := by
  unfold test
  split_ifs with h1 h2 h3 h4
  · simp [h1]
  · simp [h2]
  · simp [h3]
  · simp [h4]
  · unfold testCore
    cases hz : zmkStep sqrt0 precx (Sstat precx t.length x) (varSOf precx t.length x) with
    | none => simp [h1, h2, h3, h4, hz]
    | some z =>
        by_cases hv : haValid Ha
        · simp only [Option.elim]
          rw [if_pos hv]
          constructor
          · intro h
            exact ⟨h1, h2, h3, h4, hv, z, rfl, (Except.ok.inj h).symm⟩
          · rintro ⟨-, -, -, -, -, zmk, hzz, hr⟩
            have he : z = zmk := Option.some.inj hzz
            subst he
            rw [hr]
        · simp [h1, h2, h3, h4, hv]

/-! ### Branch lemmas for the Z-score and p-value steps -/

theorem zmkStep_pos {sqrt0 : ℚ → ℚ} {precx varS : ℚ} {S : ℤ} (h : 0 < (S : ℚ) - precx) :
    zmkStep sqrt0 precx S varS =
      some (fdiv (F.fin ((S : ℚ) - 1)) (sqrtF sqrt0 varS)) := by
  unfold zmkStep
  rw [if_pos h]

theorem zmkStep_neg {sqrt0 : ℚ → ℚ} {precx varS : ℚ} {S : ℤ} (h0 : 0 < precx)
    (h : (S : ℚ) + precx < 0) :
    zmkStep sqrt0 precx S varS =
      some (fdiv (F.fin ((S : ℚ) + 1)) (sqrtF sqrt0 varS)) := by
  unfold zmkStep
  rw [if_neg (by linarith), if_neg (by intro hc; linarith), if_pos h]

/-- Characterization of the literal guards of the Z-score step for a
positive tolerance: they are pairwise mutually exclusive but not
exhaustive — `Zmk` stays unassigned exactly on the band
`-tol ≤ S ≤ tol` minus the corner `S = tol`, and that corner is the
only place the zero branch fires. -/
theorem zmkStep_none_iff (sqrt0 : ℚ → ℚ) (precx varS : ℚ) (S : ℤ) (h0 : 0 < precx) :
    (zmkStep sqrt0 precx S varS = none ↔
        -precx ≤ (S : ℚ) ∧ (S : ℚ) ≤ precx ∧ (S : ℚ) ≠ precx) ∧
      ((S : ℚ) = precx → zmkStep sqrt0 precx S varS = some (F.fin 0)) ∧
      ¬(0 < (S : ℚ) - precx ∧ (S : ℚ) - precx = 0) ∧
      ¬(0 < (S : ℚ) - precx ∧ (S : ℚ) + precx < 0) ∧
      ¬((S : ℚ) - precx = 0 ∧ (S : ℚ) + precx < 0) := by
  refine ⟨?_, ?_, ?_, ?_, ?_⟩
  · unfold zmkStep
    split_ifs with g1 g2 g3
    · exact iff_of_false (by simp) (fun h => by linarith [h.2.1])
    · exact iff_of_false (by simp) (fun h => h.2.2 (by linarith))
    · exact iff_of_false (by simp) (fun h => by linarith [h.1])
    · refine iff_of_true rfl ⟨by linarith [not_lt.mp g3], by linarith [not_lt.mp g1],
        fun hc => g2 (by rw [hc]; ring)⟩
  · intro heq
    unfold zmkStep
    rw [if_neg (by rw [heq]; simp), if_pos (by rw [heq]; ring)]
  · rintro ⟨a, b⟩; linarith
  · rintro ⟨a, b⟩; linarith
  · rintro ⟨a, b⟩; linarith

theorem fdiv_fin_fin {a b : ℚ} (hb : b ≠ 0) : fdiv (F.fin a) (F.fin b) = F.fin (a / b) := by
  simp only [fdiv]
  rw [if_neg hb]

theorem sqrtF_of_pos {sqrt0 : ℚ → ℚ} {q : ℚ} (h : 0 < q) : sqrtF sqrt0 q = F.fin (sqrt0 q) := by
  unfold sqrtF
  rw [if_neg (not_lt.mpr h.le), if_neg (ne_of_gt h)]

theorem pOf_pos_up (ndtr0 : ℚ → ℚ) {precx : ℚ} {S : ℤ} (zmk : F)
    (h : 0 < (S : ℚ) - precx) :
    pOf ndtr0 precx S "up" zmk = fsub (F.fin 1) (ndtrF ndtr0 zmk) := by
  unfold pOf
  rw [if_pos h, if_pos rfl]

theorem pOf_pos_down (ndtr0 : ℚ → ℚ) {precx : ℚ} {S : ℤ} (zmk : F)
    (h : 0 < (S : ℚ) - precx) :
    pOf ndtr0 precx S "down" zmk = ndtrF ndtr0 zmk := by
  unfold pOf
  rw [if_pos h, if_neg (by decide), if_pos rfl]

theorem pOf_neg_up (ndtr0 : ℚ → ℚ) {precx : ℚ} {S : ℤ} (zmk : F) (h0 : 0 < precx)
    (h : (S : ℚ) + precx < 0) :
    pOf ndtr0 precx S "up" zmk = fsub (F.fin 1) (ndtrF ndtr0 zmk) := by
  unfold pOf
  rw [if_neg (by linarith), if_neg (by intro hc; linarith), if_pos h, if_pos rfl]

theorem pOf_neg_down (ndtr0 : ℚ → ℚ) {precx : ℚ} {S : ℤ} (zmk : F) (h0 : 0 < precx)
    (h : (S : ℚ) + precx < 0) :
    pOf ndtr0 precx S "down" zmk = ndtrF ndtr0 zmk := by
  unfold pOf
  rw [if_neg (by linarith), if_neg (by intro hc; linarith), if_pos h,
    if_neg (by decide), if_pos rfl]

theorem pOf_neg_upordown (ndtr0 : ℚ → ℚ) {precx : ℚ} {S : ℤ} (zmk : F) (h0 : 0 < precx)
    (h : (S : ℚ) + precx < 0) :
    pOf ndtr0 precx S "upordown" zmk = fmul (F.fin (1/2)) (ndtrF ndtr0 zmk) := by
  unfold pOf
  rw [if_neg (by linarith), if_neg (by intro hc; linarith), if_pos h,
    if_neg (by decide), if_neg (by decide), if_pos rfl]

/-- Every value the p-value computation can produce on a finite Z-score
is a finite rational in [0,1], provided the normal CDF oracle maps into
[0,1]. -/
theorem pOf_unit (ndtr0 : ℚ → ℚ) (precx : ℚ) (S : ℤ) (Ha : String) (zq : ℚ)
    (hPhi : ∀ q : ℚ, 0 ≤ ndtr0 q ∧ ndtr0 q ≤ 1) :
    finInUnit (pOf ndtr0 precx S Ha (F.fin zq)) = true := by
  have he := hPhi zq
  unfold pOf
  split_ifs <;>
    simp only [ndtrF, fsub, fneg, fadd, fmul, finInUnit, decide_eq_true_eq] <;>
    constructor <;> linarith [he.1, he.2]

/-- The up-verdict on `Z` and the down-verdict on `-Z` accept
together. -/
theorem verdict_mirror (ndtri0 : ℚ → F) (alpha : ℚ) (z : F) :
    (verdictOf ndtri0 alpha "up" z = "accept Ha := upward trend" ↔
      verdictOf ndtri0 alpha "down" (fneg z) = "accept Ha := downward trend") := by
  unfold verdictOf
  rw [if_pos rfl, if_neg (show ¬("down" : String) = "up" by decide), if_pos rfl,
    fle_fneg z (ndtri0 (1 - alpha)),
    show fge z (ndtri0 (1 - alpha)) = fle (ndtri0 (1 - alpha)) z from rfl]
  cases hb : fle (ndtri0 (1 - alpha)) z with
  | true => simp
  | false => simp

/-! ### The claims -/

/-- Claim C1, counterexample.  The claim says `alpha = 1` fails
validation with an `InvalidArgument` condition; in the code
`assert alpha` passes for the truthy value 1 and the call returns
normally (with `Z_ = ndtri(0)`). -/
theorem claimC1_cex :
    test (fun _ => 0) (fun _ => F.fin 0) (fun _ => 0) [0, 1, 2] [0, 1, 2] (1/2) 1 "up" =
      Except.ok ("accept Ha := upward trend", F.nan, F.nan, F.fin 0) := by
  with_unfolding_all decide

/-- Claim C1, amended.  Of the five listed invalid inputs only
`tie_tolerance = 0` and `alpha = 0` fail the assertion-based validation
before any numeric work; an unrecognized alternative fails only at the
verdict/return stage (unbound `MK`), after the numeric work, and
mismatched-length `t`/`x` fails inside the sign matrix loop (for
nonempty `t`); `alpha = 1` passes validation entirely (see the
counterexample). -/
theorem claimC1 :
    (∀ (sqrt0 : ℚ → ℚ) (ndtri0 : ℚ → F) (ndtr0 : ℚ → ℚ) (t x : List ℚ) (alpha : ℚ)
        (Ha : String),
        test sqrt0 ndtri0 ndtr0 t x 0 alpha Ha = Except.error MKErr.assertFail) ∧
      (∀ (sqrt0 : ℚ → ℚ) (ndtri0 : ℚ → F) (ndtr0 : ℚ → ℚ) (t x : List ℚ) (precx : ℚ)
        (Ha : String),
        test sqrt0 ndtri0 ndtr0 t x precx 0 Ha = Except.error MKErr.assertFail) ∧
      (∀ (sqrt0 : ℚ → ℚ) (ndtri0 : ℚ → F) (ndtr0 : ℚ → ℚ) (t x : List ℚ)
        (precx alpha : ℚ), precx ≠ 0 → alpha ≠ 0 →
        ¬(t.length ≠ 0 ∧ x.length ≠ t.length) →
        test sqrt0 ndtri0 ndtr0 t x precx alpha "sideways" =
          Except.error MKErr.unboundLocal) ∧
      (∀ (sqrt0 : ℚ → ℚ) (ndtri0 : ℚ → F) (ndtr0 : ℚ → ℚ) (t x : List ℚ)
        (precx alpha : ℚ) (Ha : String), precx ≠ 0 → alpha ≠ 0 → Ha ≠ "" →
        t.length ≠ 0 → x.length ≠ t.length →
        test sqrt0 ndtri0 ndtr0 t x precx alpha Ha = Except.error MKErr.shapeMismatch) := by
  refine ⟨?_, ?_, ?_, ?_⟩
  · intros; simp [test]
  · intro sqrt0 ndtri0 ndtr0 t x precx Ha
    unfold test
    rcases eq_or_ne precx 0 with hp | hp
    · rw [if_pos hp]
    · rw [if_neg hp, if_pos rfl]
  · intro sqrt0 ndtri0 ndtr0 t x precx alpha hp ha hs
    unfold test
    rw [if_neg hp, if_neg ha, if_neg (by decide), if_neg hs]
    unfold testCore
    cases zmkStep sqrt0 precx (Sstat precx t.length x) (varSOf precx t.length x) with
    | none => rfl
    | some z => rfl
  · intro sqrt0 ndtri0 ndtr0 t x precx alpha Ha hp ha hh ht hx
    unfold test
    rw [if_neg hp, if_neg ha, if_neg hh, if_pos ⟨ht, hx⟩]

/-- Claim C1, witness: the amended failure modes at concrete inputs. -/
theorem claimC1_wit :
    test (fun _ => 0) (fun _ => F.fin 0) (fun _ => 0) [0, 1] [0, 1] 1 1 "sideways" =
        Except.error MKErr.unboundLocal ∧
      test (fun _ => 0) (fun _ => F.fin 0) (fun _ => 0) [0] [0, 1] 1 1 "up" =
        Except.error MKErr.shapeMismatch :=
  ⟨claimC1.2.2.1 (fun _ => 0) (fun _ => F.fin 0) (fun _ => 0) [0, 1] [0, 1] 1 1
      (by norm_num) (by norm_num) (by simp),
    claimC1.2.2.2 (fun _ => 0) (fun _ => F.fin 0) (fun _ => 0) [0] [0, 1] 1 1 "up"
      (by norm_num) (by norm_num) (by simp) (by simp) (by simp)⟩

/-- Claim C2: the code evaluated at a failing input.  The intended
behaviour (the dead `Zmk = 0.` branch of mkt.py lines 152-153 and the
spec) is that for every integer S and tolerance > 0 exactly one of the
three Z-score branches applies, with `Z = 0` whenever
`|S| ≤ tie_tolerance`.  The guards as written are only mutually
exclusive, not exhaustive (see `zmkStep_none_iff`): with `S = 0`
(`x = [5, 5]`, the single pair tied) and tolerance `1/2` none of
`(S - precx) > 0`, `(S - precx) == 0`, `(S + precx) < 0` holds, so no
`Z = 0` is produced for the in-band statistic, `Zmk` stays unassigned
and the call fails. -/
theorem claimC2_bug :
    zmkStep (fun _ => 0) (1/2) 0 (varSOf (1/2) 2 [5, 5]) = none ∧
      test (fun _ => 0) (fun _ => F.fin 0) (fun _ => 0) [0, 1] [5, 5] (1/2) (1/20) "up" =
        Except.error MKErr.unboundLocal := by
  constructor
  · with_unfolding_all decide
  · with_unfolding_all decide

/-- Claim C3: the code evaluated at the failing input.  For the
constant series `x = [7, 7, 7]` every pair is a tie and `S = 0`, but
no Z-score branch applies (the zero-band guard reads
`(S - precx) == 0`, which would require `S = precx`), so the call
fails with an unbound `Zmk` instead of returning `Z = 0` and
`p = 0.5`. -/
theorem claimC3 :
    test (fun _ => 0) (fun _ => F.fin 0) (fun _ => 0) [0, 1, 2] [7, 7, 7] (1/1000) (1/20)
        "up" = Except.error MKErr.unboundLocal := by
  with_unfolding_all decide

/-- Claim C4: for a strictly monotonically increasing series with the
tolerance below every pairwise gap, `S = n(n-1)/2`; for a strictly
decreasing one, `S = -n(n-1)/2`. -/
theorem claimC4 (precx : ℚ) (x y : List ℚ) (h0 : 0 < precx)
    (hup : ∀ i j : ℕ, i < j → j < x.length → precx < x.getD j 0 - x.getD i 0)
    (hdown : ∀ i j : ℕ, i < j → j < y.length → precx < y.getD i 0 - y.getD j 0) :
    Sstat precx x.length x = (x.length : ℤ) * ((x.length : ℤ) - 1) / 2 ∧
      Sstat precx y.length y = -((y.length : ℤ) * ((y.length : ℤ) - 1) / 2) := by
  constructor
  · have h2 : 2 * Sstat precx x.length x = (x.length : ℤ) * ((x.length : ℤ) - 1) := by
      unfold Sstat
      have hterm : ∀ j ∈ Finset.range x.length,
          (∑ i ∈ Finset.range j, snapSgn precx (x.getD j 0 - x.getD i 0)) = (j : ℤ) := by
        intro j hj
        rw [Finset.mem_range] at hj
        have hone : ∀ i ∈ Finset.range j,
            snapSgn precx (x.getD j 0 - x.getD i 0) = 1 := by
          intro i hi
          rw [Finset.mem_range] at hi
          have hd := hup i j hi hj
          unfold snapSgn sgnQ
          rw [if_neg (by rw [abs_of_pos (by linarith)]; exact not_lt.mpr hd.le),
            if_pos (by linarith)]
        rw [Finset.sum_congr rfl hone]
        simp
      rw [Finset.sum_congr rfl hterm]
      rcases Nat.eq_zero_or_pos x.length with hn | hn
      · rw [hn]; simp
      · have hg := Finset.sum_range_id_mul_two x.length
        zify [hn] at hg
        linarith [hg]
    omega
  · have h2 : 2 * Sstat precx y.length y = -((y.length : ℤ) * ((y.length : ℤ) - 1)) := by
      unfold Sstat
      have hterm : ∀ j ∈ Finset.range y.length,
          (∑ i ∈ Finset.range j, snapSgn precx (y.getD j 0 - y.getD i 0)) = -(j : ℤ) := by
        intro j hj
        rw [Finset.mem_range] at hj
        have hone : ∀ i ∈ Finset.range j,
            snapSgn precx (y.getD j 0 - y.getD i 0) = -1 := by
          intro i hi
          rw [Finset.mem_range] at hi
          have hd := hdown i j hi hj
          unfold snapSgn sgnQ
          rw [if_neg (by rw [abs_of_neg (by linarith)]; exact not_lt.mpr (by linarith)),
            if_neg (by linarith), if_pos (by linarith)]
        rw [Finset.sum_congr rfl hone]
        simp
      rw [Finset.sum_congr rfl hterm, Finset.sum_neg_distrib]
      rcases Nat.eq_zero_or_pos y.length with hn | hn
      · rw [hn]; simp
      · have hg := Finset.sum_range_id_mul_two y.length
        zify [hn] at hg
        linarith [hg]
    omega

/-- Claim C4, witness: `x = [0, 1, 2]`, `y = [2, 1, 0]`, `tol = 1/2`. -/
theorem claimC4_wit :
    (0 : ℚ) < 1/2 ∧ Sstat (1/2) 3 [0, 1, 2] = 3 ∧ Sstat (1/2) 3 [2, 1, 0] = -3 := by
  have h := claimC4 (1/2) [0, 1, 2] [2, 1, 0] (by norm_num)
    (fun i j hij hj3 => by
      have hj : j < 3 := by simpa using hj3
      interval_cases j <;> interval_cases i <;> with_unfolding_all decide)
    (fun i j hij hj3 => by
      have hj : j < 3 := by simpa using hj3
      interval_cases j <;> interval_cases i <;> with_unfolding_all decide)
  exact ⟨by norm_num, by simpa using h.1, by simpa using h.2⟩

/-- Claim C7: no statement of `mkt.test` writes to the caller arrays
`t` and `x`; in particular the diagonal fill used for the tie lookup
mutates only the locally allocated `sgn` matrix, and the final state of
every call leaves the caller-visible arrays exactly as they were. -/
theorem claimC7 (precx alpha : ℚ) (Ha : String) (σ0 : PyState) :
    (testImp precx alpha Ha σ0).tArr = σ0.tArr ∧
      (testImp precx alpha Ha σ0).xArr = σ0.xArr := by
  unfold testImp
  split_ifs with h1 h2 h3 h4
  · exact ⟨rfl, rfl⟩
  · exact ⟨rfl, rfl⟩
  · exact ⟨rfl, rfl⟩
  · exact ⟨rfl, rfl⟩
  · have hs := sgnLoop_frame precx σ0.tArr.length (stSgnInit σ0.tArr.length σ0)
    have hq := qLoop_frame precx ((tiesOf precx σ0.tArr.length σ0.xArr).sort (· ≤ ·))
      (stQInit ((tiesOf precx σ0.tArr.length σ0.xArr).sort (· ≤ ·)).length
        (stFillDiag precx (sgnLoop precx σ0.tArr.length (stSgnInit σ0.tArr.length σ0))))
    exact ⟨hq.1.trans hs.1, hq.2.trans hs.2⟩

/-- Claim C8, counterexample.  The claim says every detected tie group
has size at least 2; with `tie_tolerance = 1e-7` the diagonal fill
`int(precx * 1e6)` truncates to 0, every index becomes a tie row, and
the distinct value 0 of `x = [0, 10]` forms a detected group of size
1. -/
theorem claimC8_cex :
    (0 : ℚ) < 1/10000000 ∧ (0 : ℚ) ∈ tiesOf (1/10000000) 2 [0, 10] ∧
      qcount (1/10000000) 2 [0, 10] 0 = 1 := by
  refine ⟨by norm_num, ?_, ?_⟩ <;> with_unfolding_all decide

/-- Claim C8, amended.  Provided the int-cast diagonal fill
`int(tie_tolerance * 1e6)` is at least 1 (in particular whenever
`tie_tolerance ≥ 1e-6`), every tie group detected by the tie-group step
has size at least 2; and a group of size 1 contributes 0 to the
variance correction sum in any case. -/
theorem claimC8 (precx : ℚ) (n : ℕ) (x : List ℚ) (hd : 1 ≤ diagFill precx) :
    (∀ v ∈ tiesOf precx n x, 2 ≤ qcount precx n x v) ∧
      (∀ v : ℚ, qcount precx n x v = 1 →
        qcount precx n x v * (qcount precx n x v - 1) * (2 * qcount precx n x v + 5) = 0) := by
  have hpos : 0 < precx := by
    unfold diagFill truncQ at hd
    by_cases hq : 0 ≤ precx * 1000000
    · rw [if_pos hq] at hd
      have h1 : (1 : ℚ) ≤ precx * 1000000 := by
        calc (1 : ℚ) = ((1 : ℤ) : ℚ) := by norm_num
        _ ≤ ((⌊precx * 1000000⌋ : ℤ) : ℚ) := by exact_mod_cast hd
        _ ≤ precx * 1000000 := Int.floor_le _
      nlinarith
    · rw [if_neg hq] at hd
      push_neg at hq
      have hc : (⌈precx * 1000000⌉ : ℤ) ≤ 0 := Int.ceil_le.mpr (by exact_mod_cast hq.le)
      omega
  constructor
  · intro v hv
    rw [tiesOf, Finset.mem_image] at hv
    obtain ⟨i, hi, hvi⟩ := hv
    rw [tieRows, Finset.mem_filter] at hi
    obtain ⟨hin, hcase⟩ := hi
    rcases hcase with ⟨j, hj, hne, hz⟩ | hdz
    · have habs : |x.getD j 0 - x.getD i 0| < precx := snapSgn_eq_zero hpos hz
      have hmemi : i ∈ (Finset.range n).filter fun l => |x.getD l 0 - v| < precx := by
        rw [Finset.mem_filter]
        exact ⟨hin, by rw [hvi]; simpa using hpos⟩
      have hmemj : j ∈ (Finset.range n).filter fun l => |x.getD l 0 - v| < precx := by
        rw [Finset.mem_filter]
        exact ⟨hj, by rw [← hvi]; exact habs⟩
      have hcard : 1 < ((Finset.range n).filter fun l => |x.getD l 0 - v| < precx).card :=
        Finset.one_lt_card.mpr ⟨j, hmemj, i, hmemi, hne⟩
      unfold qcount
      exact_mod_cast hcard
    · omega
  · intro v h1
    rw [h1]
    ring

/-- Claim C8, witness: the duplicated value 0 in `x = [0, 0]` with
`tol = 1` forms a tie group of size 2. -/
theorem claimC8_wit :
    (1 : ℤ) ≤ diagFill 1 ∧ 2 ≤ qcount 1 2 [0, 0] 0 :=
  ⟨by with_unfolding_all decide, (claimC8 1 2 [0, 0] (by with_unfolding_all decide)).1 0
    (by with_unfolding_all decide)⟩

/-- Claim C5: for the two-sided alternative with S in the negative
region (`S + tie_tolerance < 0`, tolerance positive), the returned
p-value is `0.5 * Φ(Z)` with `Z = (S + 1)/sqrt(varS)` the computed
Z-score — the branch that is asymmetric with the positive region
`0.5 * (1 - Φ(Z))` is preserved literally. -/
theorem claimC5 (sqrt0 : ℚ → ℚ) (ndtri0 : ℚ → F) (ndtr0 : ℚ → ℚ) (t x : List ℚ)
    (precx alpha : ℚ) (MK : String) (m c p : F) (h0 : 0 < precx)
    (hok : test sqrt0 ndtri0 ndtr0 t x precx alpha "upordown" = Except.ok (MK, m, c, p))
    (hS : (Sstat precx t.length x : ℚ) + precx < 0) :
    p = fmul (F.fin (1/2)) (ndtrF ndtr0 (fdiv (F.fin ((Sstat precx t.length x : ℚ) + 1))
      (sqrtF sqrt0 (varSOf precx t.length x)))) := by
  rcases test_ok_iff.mp hok with ⟨-, -, -, -, -, zmk, hz, hr⟩
  rw [zmkStep_neg h0 hS] at hz
  have hzz := Option.some.inj hz
  have hp : p = pOf ndtr0 precx (Sstat precx t.length x) "upordown" zmk :=
    congrArg (fun r => r.2.2.2) hr
  rw [hp, pOf_neg_upordown ndtr0 zmk h0 hS, ← hzz]

/-- Claim C5, witness: `x = [2, 1, 0]` gives `S = -3` and, with
constant oracles, `p = 1/8 = 0.5 * Φ(Z)`. -/
theorem claimC5_wit :
    (0 : ℚ) < 1/2 ∧ (Sstat (1/2) 3 [2, 1, 0] : ℚ) + 1/2 < 0 ∧
      F.fin (1/8) = fmul (F.fin (1/2)) (ndtrF (fun _ => 1/4)
        (fdiv (F.fin ((Sstat (1/2) 3 [2, 1, 0] : ℚ) + 1))
          (sqrtF (fun _ => 1) (varSOf (1/2) 3 [2, 1, 0])))) :=
  ⟨by norm_num, by with_unfolding_all decide,
    claimC5 (fun _ => 1) (fun _ => F.fin 0) (fun _ => 1/4) [0, 1, 2] [2, 1, 0] (1/2) (1/20)
      "accept Ha := upward OR downward trend" (F.fin (-1)) (F.fin 2) (F.fin (1/8))
      (by norm_num) (by with_unfolding_all decide) (by with_unfolding_all decide)⟩

/-- Claim C6: negating the measurements and swapping the one-sided
alternative mirrors the verdict and negates the returned slope
(tolerance in the contract domain `tie_tolerance > 0`; both calls are
assumed to return). -/
theorem claimC6 (sqrt0 : ℚ → ℚ) (ndtri0 : ℚ → F) (ndtr0 : ℚ → ℚ) (t x : List ℚ)
    (precx alpha : ℚ) (MK1 MK2 : String) (m1 c1 p1 m2 c2 p2 : F) (h0 : 0 < precx)
    (hup : test sqrt0 ndtri0 ndtr0 t x precx alpha "up" = Except.ok (MK1, m1, c1, p1))
    (hdn : test sqrt0 ndtri0 ndtr0 t (x.map fun a => -a) precx alpha "down" =
      Except.ok (MK2, m2, c2, p2)) :
    (MK1 = "accept Ha := upward trend" ↔ MK2 = "accept Ha := downward trend") ∧
      m2 = fneg m1 := by
  rcases test_ok_iff.mp hup with ⟨-, -, -, -, -, z1, hz1, hr1⟩
  rcases test_ok_iff.mp hdn with ⟨-, -, -, -, -, z2, hz2, hr2⟩
  have hMK1 : MK1 = verdictOf ndtri0 alpha "up" z1 := congrArg (fun r => r.1) hr1
  have hMK2 : MK2 = verdictOf ndtri0 alpha "down" z2 := congrArg (fun r => r.1) hr2
  have hm1 : m1 = slopeF sqrt0 t x := congrArg (fun r => r.2.1) hr1
  have hm2 : m2 = slopeF sqrt0 t (x.map fun a => -a) := congrArg (fun r => r.2.1) hr2
  rw [Sstat_map_neg, varSOf_map_neg] at hz2
  have hz2n : z2 = fneg z1 := by
    unfold zmkStep at hz1
    split_ifs at hz1 with g1 g2 g3
    · rw [zmkStep_neg h0 (by push_cast; linarith)] at hz2
      have e1 := Option.some.inj hz1
      have e2 := Option.some.inj hz2
      rw [← e2, ← e1]
      have hc : ((-Sstat precx t.length x : ℤ) : ℚ) + 1 =
          -((Sstat precx t.length x : ℚ) - 1) := by push_cast; ring
      rw [hc, fdiv_fin_neg]
    · exfalso
      unfold zmkStep at hz2
      rw [if_neg (by push_cast; linarith), if_neg (by push_cast; intro hc; linarith),
        if_neg (by push_cast; linarith)] at hz2
      exact Option.noConfusion hz2
    · rw [zmkStep_pos (by push_cast; linarith)] at hz2
      have e1 := Option.some.inj hz1
      have e2 := Option.some.inj hz2
      rw [← e2, ← e1]
      have hc : ((-Sstat precx t.length x : ℤ) : ℚ) - 1 =
          -((Sstat precx t.length x : ℚ) + 1) := by push_cast; ring
      rw [hc, fdiv_fin_neg]
  constructor
  · rw [hMK1, hMK2, hz2n]
    exact verdict_mirror ndtri0 alpha z1
  · rw [hm1, hm2, slopeF_map_neg]

/-- Claim C6, witness: `t = x = [0, 1, 2]`, both calls accept and the
slopes are 1 and -1. -/
theorem claimC6_wit :
    (0 : ℚ) < 1/2 ∧
      (("accept Ha := upward trend" = "accept Ha := upward trend") ↔
        ("accept Ha := downward trend" = "accept Ha := downward trend")) ∧
      F.fin (-1) = fneg (F.fin 1) :=
  ⟨by norm_num,
    claimC6 (fun _ => 1) (fun _ => F.fin 0) (fun _ => 1/2) [0, 1, 2] [0, 1, 2] (1/2) (1/20)
      "accept Ha := upward trend" "accept Ha := downward trend"
      (F.fin 1) (F.fin 0) (F.fin (1/2)) (F.fin (-1)) (F.fin 0) (F.fin (1/2))
      (by norm_num) (by with_unfolding_all decide) (by with_unfolding_all decide)⟩

/-- Claim C9, counterexample.  The claim says the returned p-value
always lies in [0,1]; for `x = [0..6]` with `tie_tolerance = 3.5` the
overlapping tie groups make `varS = -322/3 < 0`, `sqrt(varS)` is NaN,
and the call returns normally with `p = NaN`, which is not a finite
value in [0,1]. -/
theorem claimC9_cex :
    test (fun _ => 0) (fun _ => F.fin 0) (fun _ => 0) [0, 1, 2, 3, 4, 5, 6]
        [0, 1, 2, 3, 4, 5, 6] (7/2) (1/20) "up" =
        Except.ok ("reject Ha := upward trend", F.nan, F.nan, F.nan) ∧
      finInUnit F.nan = false := by
  constructor
  · with_unfolding_all decide
  · rfl

/-- Claim C9, amended.  Whenever the call returns and the computed
variance of S is positive (the square root oracle being positive on
positive arguments and the normal CDF oracle mapping into [0,1]), the
returned p-value is a finite rational in [0,1]; and unconditionally the
returned verdict contains exactly one of the words accept/reject and
names the tested alternative.  When `varS ≤ 0` the returned p-value is
NaN (see the counterexample). -/
theorem claimC9 (sqrt0 ndtr0 : ℚ → ℚ) (ndtri0 : ℚ → F) (t x : List ℚ)
    (precx alpha : ℚ) (Ha MK : String) (m c p : F)
    (hPhi : ∀ q : ℚ, 0 ≤ ndtr0 q ∧ ndtr0 q ≤ 1)
    (hsq : ∀ q : ℚ, 0 < q → 0 < sqrt0 q)
    (hvar : 0 < varSOf precx t.length x)
    (hok : test sqrt0 ndtri0 ndtr0 t x precx alpha Ha = Except.ok (MK, m, c, p)) :
    finInUnit p = true ∧
      Bool.xor (hasSubstr MK ("accept")) (hasSubstr MK ("reject")) = true ∧
      hasSubstr MK (haName Ha) = true := by
  rcases test_ok_iff.mp hok with ⟨-, -, -, -, hv, zmk, hz, hr⟩
  have hMK : MK = verdictOf ndtri0 alpha Ha zmk := congrArg (fun r => r.1) hr
  have hp : p = pOf ndtr0 precx (Sstat precx t.length x) Ha zmk :=
    congrArg (fun r => r.2.2.2) hr
  have hha : (Ha = "up" ∨ Ha = "down") ∨ Ha = "upordown" := by
    unfold haValid at hv
    simpa using hv
  have hzfin : ∃ zq : ℚ, zmk = F.fin zq := by
    unfold zmkStep at hz
    split_ifs at hz with g1 g2 g3
    · refine ⟨((Sstat precx t.length x : ℚ) - 1) / sqrt0 (varSOf precx t.length x), ?_⟩
      rw [← Option.some.inj hz, sqrtF_of_pos hvar,
        fdiv_fin_fin (ne_of_gt (hsq _ hvar))]
    · exact ⟨0, (Option.some.inj hz).symm⟩
    · refine ⟨((Sstat precx t.length x : ℚ) + 1) / sqrt0 (varSOf precx t.length x), ?_⟩
      rw [← Option.some.inj hz, sqrtF_of_pos hvar,
        fdiv_fin_fin (ne_of_gt (hsq _ hvar))]
  obtain ⟨zq, rfl⟩ := hzfin
  refine ⟨by rw [hp]; exact pOf_unit ndtr0 precx (Sstat precx t.length x) Ha zq hPhi, ?_⟩
  rcases hha with (h | h) | h <;> subst h <;> rw [hMK] <;> unfold verdictOf
  · rw [if_pos rfl]
    cases fge (F.fin zq) (ndtri0 (1 - alpha)) with
    | true => with_unfolding_all decide
    | false => with_unfolding_all decide
  · rw [if_neg (show ¬("down" : String) = "up" by decide), if_pos rfl]
    cases fle (F.fin zq) (fneg (ndtri0 (1 - alpha))) with
    | true => with_unfolding_all decide
    | false => with_unfolding_all decide
  · rw [if_neg (show ¬("upordown" : String) = "up" by decide),
      if_neg (show ¬("upordown" : String) = "down" by decide), if_pos rfl]
    cases fge (fabsF (F.fin zq)) (ndtri0 (1 - alpha / 2)) with
    | true => with_unfolding_all decide
    | false => with_unfolding_all decide

/-- Claim C9, witness: a clean upward series returns `p = 1/2 ∈ [0,1]`
and the verdict "accept Ha := upward trend". -/
theorem claimC9_wit :
    (0 : ℚ) < varSOf (1/2) 3 [0, 1, 2] ∧
      (finInUnit (F.fin (1/2)) = true ∧
        Bool.xor (hasSubstr ("accept Ha := upward trend") ("accept"))
          (hasSubstr ("accept Ha := upward trend") ("reject")) = true ∧
        hasSubstr ("accept Ha := upward trend") (haName ("up")) = true) :=
  ⟨by with_unfolding_all decide,
    claimC9 (fun q => if 0 < q then 1 else 0) (fun _ => 1/2) (fun _ => F.fin 0)
      [0, 1, 2] [0, 1, 2] (1/2) (1/20) "up" "accept Ha := upward trend"
      (F.fin 1) (F.fin 0) (F.fin (1/2))
      (fun _ => ⟨by norm_num, by norm_num⟩) (fun q hq => by simp [hq])
      (by with_unfolding_all decide) (by with_unfolding_all decide)⟩

/-- Claim C10, counterexample.  The claim says the "up" and "down"
p-values of the same data sum to 1 whenever S is outside the zero band;
with `varS < 0` both p-values are NaN and their IEEE sum is NaN, not
1. -/
theorem claimC10_cex :
    test (fun _ => 0) (fun _ => F.fin 0) (fun _ => 0) [0, 2, 4, 6, 8, 10, 12]
        [0, 1, 2, 3, 4, 5, 6] (7/2) (1/20) "up" =
        Except.ok ("reject Ha := upward trend", F.nan, F.nan, F.nan) ∧
      test (fun _ => 0) (fun _ => F.fin 0) (fun _ => 0) [0, 2, 4, 6, 8, 10, 12]
        [0, 1, 2, 3, 4, 5, 6] (7/2) (1/20) "down" =
        Except.ok ("reject Ha := downward trend", F.nan, F.nan, F.nan) ∧
      fadd F.nan F.nan ≠ F.fin 1 := by
  refine ⟨?_, ?_, ?_⟩
  · with_unfolding_all decide
  · with_unfolding_all decide
  · with_unfolding_all decide

/-- Claim C10, amended.  With a positive tolerance, S outside the zero
band, a positive computed variance and a square-root oracle positive on
positive arguments, the "up" and "down" p-values of the same call data
are the complementary tail probabilities `1 - Φ(Z)` and `Φ(Z)` of the
same Z-score, so they sum to exactly 1.  When `varS ≤ 0` both are NaN
and the sum is NaN (see the counterexample). -/
theorem claimC10 (sqrt0 : ℚ → ℚ) (ndtri0 : ℚ → F) (ndtr0 : ℚ → ℚ) (t x : List ℚ)
    (precx alpha : ℚ) (MK1 MK2 : String) (m1 c1 p1 m2 c2 p2 : F)
    (h0 : 0 < precx) (hsq : ∀ q : ℚ, 0 < q → 0 < sqrt0 q)
    (hvar : 0 < varSOf precx t.length x)
    (hout : 0 < (Sstat precx t.length x : ℚ) - precx ∨
      (Sstat precx t.length x : ℚ) + precx < 0)
    (hup : test sqrt0 ndtri0 ndtr0 t x precx alpha "up" = Except.ok (MK1, m1, c1, p1))
    (hdn : test sqrt0 ndtri0 ndtr0 t x precx alpha "down" = Except.ok (MK2, m2, c2, p2)) :
    fadd p1 p2 = F.fin 1 := by
  rcases test_ok_iff.mp hup with ⟨-, -, -, -, -, z1, hz1, hr1⟩
  rcases test_ok_iff.mp hdn with ⟨-, -, -, -, -, z2, hz2, hr2⟩
  have hp1 : p1 = pOf ndtr0 precx (Sstat precx t.length x) "up" z1 :=
    congrArg (fun r => r.2.2.2) hr1
  have hp2 : p2 = pOf ndtr0 precx (Sstat precx t.length x) "down" z2 :=
    congrArg (fun r => r.2.2.2) hr2
  have hsp : 0 < sqrt0 (varSOf precx t.length x) := hsq _ hvar
  rcases hout with h | h
  · rw [zmkStep_pos h] at hz1 hz2
    have e1 := Option.some.inj hz1
    have e2 := Option.some.inj hz2
    rw [hp1, hp2, ← e1, ← e2, pOf_pos_up ndtr0 _ h, pOf_pos_down ndtr0 _ h,
      sqrtF_of_pos hvar, fdiv_fin_fin (ne_of_gt hsp)]
    simp only [ndtrF, fsub, fneg, fadd]
    congr 1
    ring
  · rw [zmkStep_neg h0 h] at hz1 hz2
    have e1 := Option.some.inj hz1
    have e2 := Option.some.inj hz2
    rw [hp1, hp2, ← e1, ← e2, pOf_neg_up ndtr0 _ h0 h, pOf_neg_down ndtr0 _ h0 h,
      sqrtF_of_pos hvar, fdiv_fin_fin (ne_of_gt hsp)]
    simp only [ndtrF, fsub, fneg, fadd]
    congr 1
    ring

/-- Claim C10, witness: for `x = [0, 1, 2]` the up and down p-values
`3/4` and `1/4` sum to 1. -/
theorem claimC10_wit :
    (0 : ℚ) < varSOf (1/2) 3 [0, 1, 2] ∧ fadd (F.fin (3/4)) (F.fin (1/4)) = F.fin 1 :=
  ⟨by with_unfolding_all decide,
    claimC10 (fun q => if 0 < q then 1 else 0) (fun _ => F.fin 0) (fun _ => 1/4)
      [0, 1, 2] [0, 1, 2] (1/2) (1/20)
      "accept Ha := upward trend" "reject Ha := downward trend"
      (F.fin 1) (F.fin 0) (F.fin (3/4)) (F.fin 1) (F.fin 0) (F.fin (1/4))
      (by norm_num) (fun q hq => by simp [hq]) (by with_unfolding_all decide)
      (Or.inl (by with_unfolding_all decide)) (by with_unfolding_all decide)
      (by with_unfolding_all decide)⟩

end Mkt
